import Mathlib

/-!
# Verification of the `readme_generator` markdown parser

Shallow embedding of `src/readme_generator/parser.py` (together with the regex
constants from `src/readme_generator/config.py`) and proofs about it.

Modelling conventions:
* A line of text is a `List Char`.  All lines handled by the parser come from
  `content.split('\n')`, so they never contain `'\n'`; regex character classes
  are modelled for such newline-free lines.
* Python's `\s` class is modelled on ASCII (space, tab, newline, carriage
  return, form feed, vertical tab), `\w` and `\d` as ASCII word/digit
  characters, and `str.lower` as ASCII lowercasing; all concrete inputs in
  this development are ASCII.
* Python regex scanning (`re.finditer` / `re.findall`: leftmost,
  non-overlapping matches) is implemented by fuel-indexed scanners, with the
  fuel instantiated to the length of the input, which a step of the scanner
  never exceeds.
* The in-place list mutation of `_build_section_hierarchy` is simulated
  functionally: a stack frame carries the (reversed) list of children
  accumulated so far, and a section is attached to its parent when it is
  popped, which is when its child list is final.
-/

namespace ReadmeGen

/-- Python's `\s` character class, restricted to ASCII. -/
def isPySpace (c : Char) : Bool :=
  c = ' ' || c = '\t' || c = '\n' || c = '\r' || c = '\x0b' || c = '\x0c'

/-- ASCII `\w` (word character). -/
def isWordChar (c : Char) : Bool :=
  c.isAlpha || c.isDigit || c = '_'

/-- ASCII `\d`. -/
def isDigitChar (c : Char) : Bool := c.isDigit

/-- Python `str.strip()` (whitespace from both ends). -/
def stripPy (s : List Char) : List Char :=
  ((s.dropWhile isPySpace).reverse.dropWhile isPySpace).reverse

/-- Python `'\n'.join(lines)`. -/
def joinLines : List (List Char) → List Char
  | [] => []
  | [l] => l
  | l :: ls => l ++ '\n' :: joinLines ls

/-- Python `content.split('\n')`. -/
def splitNl : List Char → List (List Char)
  | [] => [[]]
  | c :: rest =>
    if c = '\n' then [] :: splitNl rest
    else
      match splitNl rest with
      | l :: ls => (c :: l) :: ls
      | [] => [[c]]

/-- Convenience: the character list of a string literal. -/
def strL (s : String) : List Char := s.data

/-- ASCII `str.lower`, character-wise. -/
def lowerL (s : List Char) : List Char := s.map Char.toLower

/-- Lexicographic `≤` on character lists, as Python compares strings. -/
def lexLe : List Char → List Char → Bool
  | [], _ => true
  | _ :: _, [] => false
  | a :: as, b :: bs => if a < b then true else if b < a then false else lexLe as bs

/-! ## Header matching (`_match_header`, parser.py lines 457-469)

The pattern tried for each `level` in `1..6` is `^#{level}\s+(.+)$`.
On a newline-free line this matches iff the line starts with `level` copies
of `'#'`, the next character is whitespace, and at least two characters
follow the hashes. -/

/-- Does `^#{lvl}\s+(.+)$` match the (newline-free) line? -/
def headerLevelMatches (lvl : Nat) (line : List Char) : Bool :=
  decide (line.take lvl = List.replicate lvl '#') &&
  (match line.drop lvl with
   | c :: rest => isPySpace c && !rest.isEmpty
   | [] => false)

/-- `re.sub(r"^\d+\.\s+", "", title)`: drop a leading `1. ` numbering. -/
def stripNumbering (s : List Char) : List Char :=
  let ds := s.takeWhile isDigitChar
  if ds.isEmpty then s
  else
    match s.drop ds.length with
    | '.' :: r =>
      let ws := r.takeWhile isPySpace
      if ws.isEmpty then s else r.drop ws.length
    | _ => s

/-- The title captured by `^#{lvl}\s+(.+)$` after `.strip()` and numbering
removal; `tail` is the part of the line after the hashes. -/
def titleOf (tail : List Char) : List Char :=
  stripNumbering (stripPy (tail.dropWhile isPySpace))

/-- `_match_header`: try levels 1..6 in order. -/
def matchHeaderAux : List Nat → List Char → Option (Nat × List Char)
  | [], _ => none
  | lvl :: rest, line =>
    if headerLevelMatches lvl line then some (lvl, titleOf (line.drop lvl))
    else matchHeaderAux rest line

/-- `_match_header(line)`, returning `(level, title)` on success.
`NESTING_CONFIG["max_nesting_depth"] = 6`. -/
def matchHeader (line : List Char) : Option (Nat × List Char) :=
  matchHeaderAux [1, 2, 3, 4, 5, 6] line

example : matchHeader (strL ("### Hello")) = some (3, strL ("Hello")) := by decide
example : matchHeader (strL ("###Hello")) = none := by decide
example : matchHeader (strL ("## 2. Setup")) = some (2, strL ("Setup")) := by decide

/-! ## Data model (parser.py lines 34-69)

`Section.section_type` (computed by `get_section_type_from_header`) is not
modelled: no claim concerns it.  `CodeBlock.line_number` is set only by the
whole-document extractor, not by the per-section one used below, and is
likewise omitted. -/

/-- `CodeBlock` (per-section form: no line number). -/
structure CodeBlock where
  content : List Char
  language : Option (List Char)
  isInline : Bool
deriving DecidableEq, Repr

/-- The `type` value stored with each extracted link. -/
inductive LinkType where
  | anchor
  | external
  | file
deriving DecidableEq, Repr

/-- One entry of the `links` list: `{"text": .., "url": .., "type": ..}`. -/
structure Link where
  text : List Char
  url : List Char
  ltype : LinkType
deriving DecidableEq, Repr

/-- The scalar fields of a `Section`; `subsections` lives in `Sec` below. -/
structure SecData where
  title : List Char
  level : Nat
  content : List Char
  lineNumber : Nat
  codeBlocks : List CodeBlock := []
  tables : List (List Char) := []
  links : List Link := []
deriving DecidableEq, Repr

/-- A `Section` together with its `subsections` tree. -/
inductive Sec where
  | node (d : SecData) (subs : List Sec)

/-- The scalar data of a section node. -/
def Sec.dataOf : Sec → SecData
  | .node d _ => d

/-- The `subsections` of a section node. -/
def Sec.subsOf : Sec → List Sec
  | .node _ s => s

/-- The `level` of a section node. -/
def Sec.rootLevel (s : Sec) : Nat := s.dataOf.level

/-! ## Per-section code block extraction
(`_extract_section_code_blocks`, parser.py lines 498-526) -/

/-- The backtick character (codepoint 96). -/
def btick : Char := Char.ofNat 96

/-- Find the earliest triple backtick in a string: returns the part before
it and the part after it (the lazy `(.*?)` + closing fence of the
fenced-block regex). -/
def splitAtTripleBacktick : List Char → Option (List Char × List Char)
  | [] => none
  | c :: rest =>
    if c = btick && rest.take 2 = [btick, btick] then some ([], rest.drop 2)
    else
      match splitAtTripleBacktick rest with
      | some (pre, post) => some (c :: pre, post)
      | none => none

/-- Try the fenced-block regex (triple backtick, `(\w+)?`, newline, lazy
body `(.*?)` in DOTALL mode, closing triple backtick) at the start of `s`;
on success return `(language group, body group, rest of input)`. -/
def tryFencedAt (s : List Char) : Option (Option (List Char) × List Char × List Char) :=
  if s.take 3 = [btick, btick, btick] then
    let rest := s.drop 3
    let lang := rest.takeWhile isWordChar
    (match rest.drop lang.length with
     | '\n' :: rest2 =>
       match splitAtTripleBacktick rest2 with
       | some (body, after) => some (if lang.isEmpty then none else some lang, body, after)
       | none => none
     | _ => none)
  else none

/-- `finditer` scan for fenced code blocks (leftmost, non-overlapping).
`fuel` bounds the recursion; it is instantiated with the input length. -/
def scanFenced : Nat → List Char → List (Option (List Char) × List Char)
  | 0, _ => []
  | _ + 1, [] => []
  | fuel + 1, c :: rest =>
    match tryFencedAt (c :: rest) with
    | some (lang, body, after) => (lang, body) :: scanFenced fuel after
    | none => scanFenced fuel rest

/-- Try the inline-code regex (backtick, nonempty run of non-backtick
characters, backtick) at the start of `s`. -/
def tryInlineAt (s : List Char) : Option (List Char × List Char) :=
  match s with
  | c0 :: rest =>
    if c0 = btick then
      let body := rest.takeWhile (fun c => c ≠ btick)
      if body.isEmpty then none
      else
        match rest.drop body.length with
        | c1 :: after => if c1 = btick then some (body, after) else none
        | _ => none
    else none
  | _ => none

/-- `finditer` scan for inline code. -/
def scanInline : Nat → List Char → List (List Char)
  | 0, _ => []
  | _ + 1, [] => []
  | fuel + 1, c :: rest =>
    match tryInlineAt (c :: rest) with
    | some (body, after) => body :: scanInline fuel after
    | none => scanInline fuel rest

/-- `_extract_section_code_blocks(content)`: fenced blocks of length ≥
`min_code_block_length = 10` (stripped), then inline code of length ≥ 2.
The `group(0).strip('`')` of an inline match is exactly its body. -/
def extractSectionCodeBlocks (content : List Char) : List CodeBlock :=
  let fenced := (scanFenced content.length content).filterMap fun p =>
    let code := stripPy p.2
    if code.length ≥ 10 then some ⟨code, p.1, false⟩ else none
  let inline := (scanInline content.length content).filterMap fun body =>
    if body.length ≥ 2 then some ⟨body, none, true⟩ else none
  fenced ++ inline

/-! ## Per-section link extraction
(`_extract_section_links`, parser.py lines 556-579; `LINK_CONFIG`) -/

/-- Try the link regex `\[([^\]]+)\]\(([^\)]+)\)` at the start of `s`. -/
def tryLinkAt (s : List Char) : Option (List Char × List Char × List Char) :=
  match s with
  | '[' :: rest =>
    let text := rest.takeWhile (fun c => c ≠ ']')
    if text.isEmpty then none
    else
      match rest.drop text.length with
      | ']' :: '(' :: rest2 =>
        let url := rest2.takeWhile (fun c => c ≠ ')')
        if url.isEmpty then none
        else
          match rest2.drop url.length with
          | ')' :: after => some (text, url, after)
          | _ => none
      | _ => none
  | _ => none

/-- `finditer` scan for markdown links. -/
def scanLinks : Nat → List Char → List (List Char × List Char)
  | 0, _ => []
  | _ + 1, [] => []
  | fuel + 1, c :: rest =>
    match tryLinkAt (c :: rest) with
    | some (text, url, after) => (text, url) :: scanLinks fuel after
    | none => scanLinks fuel rest

/-- Classify a link url: `#...` is an anchor, `http(s)://` is external,
anything else a file link. -/
def linkTypeOf (url : List Char) : LinkType :=
  if url.head? = some '#' then .anchor
  else if (strL "http://").isPrefixOf url || (strL "https://").isPrefixOf url then .external
  else .file

/-- `_extract_section_links(content)`. -/
def extractSectionLinks (content : List Char) : List Link :=
  (scanLinks content.length content).map fun p => ⟨p.1, p.2, linkTypeOf p.2⟩

/-! ## Table extraction (`_extract_tables` parser.py lines 260-293,
`_extract_section_tables` lines 529-553, `TABLE_CONFIG` config.py 281-288) -/

/-- Is there a `'|'` reachable through at least one non-newline character?
(the `.+\|` part of the row regex). -/
def hasPipeNoNl : List Char → Bool
  | [] => false
  | c :: rs => c = '|' || (c ≠ '\n' && hasPipeNoNl rs)

/-- `table_pattern = r"^\|.+\|"`. -/
def rowMatch : List Char → Bool
  | c0 :: c :: rs => c0 = '|' && c ≠ '\n' && hasPipeNoNl rs
  | _ => false

/-- The `[\s\-:]` class of the separator regex. -/
def sepClass (c : Char) : Bool := isPySpace c || c = '-' || c = ':'

/-- `table_separator_pattern = r"^\|[\s\-:]+\|"`: a pipe, a nonempty run of
separator-class characters, a pipe.  Since `'|'` is not in the class, the
first pipe after position 0 must close the maximal class run. -/
def sepMatch : List Char → Bool
  | c0 :: rest =>
    c0 = '|' &&
    (let pre := rest.takeWhile sepClass
     !pre.isEmpty && (rest.drop pre.length).head? = some '|')
  | [] => false

/-- The loop of `_extract_tables` (document level, with the lookback at the
previous line when a table opens). -/
def extractTablesGo (prev : Option (List Char)) (inTable : Bool)
    (tbl : List (List Char)) (acc : List (List Char)) :
    List (List Char) → List (List Char)
  | [] => if inTable && !tbl.isEmpty then acc ++ [joinLines tbl] else acc
  | l :: rest =>
    if rowMatch l then
      let tbl1 := if !inTable then
          (match prev with
           | some p => if rowMatch p then [p] else tbl
           | none => tbl)
        else tbl
      extractTablesGo (some l) true (tbl1 ++ [l]) acc rest
    else if sepMatch l then
      extractTablesGo (some l) inTable (if inTable then tbl ++ [l] else tbl) acc rest
    else if inTable && !tbl.isEmpty then
      extractTablesGo (some l) false [] (acc ++ [joinLines tbl]) rest
    else
      extractTablesGo (some l) false tbl acc rest

/-- `_extract_tables(lines)`. -/
def extractTables (lines : List (List Char)) : List (List Char) :=
  extractTablesGo none false [] [] lines

/-- The loop of `_extract_section_tables` (no previous-line lookback). -/
def extractSectionTablesGo (inTable : Bool) (tbl : List (List Char))
    (acc : List (List Char)) : List (List Char) → List (List Char)
  | [] => if inTable && !tbl.isEmpty then acc ++ [joinLines tbl] else acc
  | l :: rest =>
    if rowMatch l then
      extractSectionTablesGo true (tbl ++ [l]) acc rest
    else if sepMatch l then
      extractSectionTablesGo inTable (if inTable then tbl ++ [l] else tbl) acc rest
    else if inTable && !tbl.isEmpty then
      extractSectionTablesGo false [] (acc ++ [joinLines tbl]) rest
    else
      extractSectionTablesGo false tbl acc rest

/-- `_extract_section_tables(content)`. -/
def extractSectionTables (content : List Char) : List (List Char) :=
  extractSectionTablesGo false [] [] (splitNl content)

/-! ## Version extraction (`_extract_special_content`, parser.py lines
326-358; `SPECIAL_CONTENT_CONFIG["version_pattern"]`, config.py line 311) -/

/-- Try `(?i)\*\*version\*\*:\s*[\d.]+` at the start of `s`; on success
return the matched substring and the rest of the input. -/
def tryVersionAt (s : List Char) : Option (List Char × List Char) :=
  let pat := strL "**version**:"
  if lowerL (s.take pat.length) = pat then
    let rest := s.drop pat.length
    let ws := rest.takeWhile isPySpace
    let digits := (rest.drop ws.length).takeWhile fun c => c.isDigit || c = '.'
    if digits.isEmpty then none
    else some (s.take pat.length ++ ws ++ digits, (rest.drop ws.length).drop digits.length)
  else none

/-- `findall` scan for the version pattern. -/
def scanVersions : Nat → List Char → List (List Char)
  | 0, _ => []
  | _ + 1, [] => []
  | fuel + 1, c :: rest =>
    match tryVersionAt (c :: rest) with
    | some (m, after) => m :: scanVersions fuel after
    | none => scanVersions fuel rest

/-- All matches of the version pattern in `content`. -/
def versionFindall (content : List Char) : List (List Char) :=
  scanVersions content.length content

/-- The `"version"` entry of `_extract_special_content(content)`:
present (`some`) exactly when `findall` returned a nonempty list
(`detect_version_info` is `True` in `SPECIAL_CONTENT_CONFIG`). -/
def specialVersionEntry (content : List Char) : Option (List (List Char)) :=
  let vs := versionFindall content
  if vs.isEmpty then none else some vs

/-! ## Numbered-list workflows (`_extract_workflows`, parser.py lines
361-381: the numbered-list part; the "workflow section" part at lines
383-396 is appended afterwards and is not involved in any claim) -/

/-- `^\d+\.\s+.+`: a nonempty digit run, a dot, at least one whitespace
character, at least one further character. -/
def isWorkflowLine (l : List Char) : Bool :=
  let ds := l.takeWhile isDigitChar
  !ds.isEmpty &&
  (match l.drop ds.length with
   | '.' :: c :: rest => isPySpace c && !rest.isEmpty
   | _ => false)

/-- The numbered-list loop of `_extract_workflows`.  Note that the
accumulator `cur` is reset only when it is flushed (length ≥ 3): the
`else` branch of the Python loop leaves `current_workflow` untouched when
it holds fewer than 3 lines. -/
def workflowsGo (cur : List (List Char)) (acc : List (List Char)) :
    List (List Char) → List (List Char)
  | [] => if cur.length ≥ 3 then acc ++ [joinLines cur] else acc
  | l :: rest =>
    if isWorkflowLine l then workflowsGo (cur ++ [stripPy l]) acc rest
    else if cur.length ≥ 3 then workflowsGo [] (acc ++ [joinLines cur]) rest
    else workflowsGo cur acc rest

/-- The numbered-list workflows extracted from `lines`. -/
def extractNumberedWorkflows (lines : List (List Char)) : List (List Char) :=
  workflowsGo [] [] lines

/-! ## Section parsing (`_parse_sections`, parser.py lines 401-454) -/

/-- The main loop of `_parse_sections`: split the lines into flat sections,
each owning the lines between its header and the next header (of any
level), joined and stripped.  `i` is the 0-based index of the next line. -/
def sectionsGo (i : Nat) (cur : Option SecData) (cc : List (List Char))
    (acc : List SecData) : List (List Char) → List SecData
  | [] =>
    (match cur with
     | some s => acc ++ [{ s with content := stripPy (joinLines cc) }]
     | none => acc)
  | l :: rest =>
    match matchHeader l with
    | some (lvl, title) =>
      let acc1 := match cur with
        | some s => acc ++ [{ s with content := stripPy (joinLines cc) }]
        | none => acc
      sectionsGo (i + 1) (some { title := title, level := lvl, content := [],
                                 lineNumber := i + 1 }) [] acc1 rest
    | none =>
      match cur with
      | some _ => sectionsGo (i + 1) cur (cc ++ [l]) acc rest
      | none => sectionsGo (i + 1) none cc acc rest

/-- The flat, document-order list of sections of `_parse_sections`, before
the hierarchy is built. -/
def parseSectionsFlat (lines : List (List Char)) : List SecData :=
  sectionsGo 0 none [] [] lines

/-! ## Hierarchy building (`_build_section_hierarchy`, parser.py lines
472-495)

The Python code mutates `subsections` in place: a section is appended to
the subsections of the section below it on the stack (or to the root list)
when it is pushed, and its own subsections keep growing while it remains
on the stack.  Functionally, a stack frame holds the section's data and
its children accumulated so far (in reverse), and the finished tree is
attached to the frame below when it is popped — at that moment its child
list is final, because a popped frame never returns to the stack. -/

/-- A stack frame: section data plus reversed accumulated children. -/
structure Frame where
  d : SecData
  revCs : List Sec

/-- Pop stack frames while the top's level is ≥ `lvl` (the
`while section_stack and section_stack[-1].level >= section.level` loop).
`pending` is a just-popped tree waiting to be attached to the next frame
down (or to the root list). -/
def popGo (lvl : Nat) (pending : Option Sec) :
    List Frame → List Sec → List Frame × List Sec
  | [], roots =>
    ([], match pending with
         | some t => t :: roots
         | none => roots)
  | f :: stk, roots =>
    let f1 : Frame := match pending with
      | some t => { f with revCs := t :: f.revCs }
      | none => f
    if lvl ≤ f1.d.level then
      popGo lvl (some (Sec.node f1.d f1.revCs.reverse)) stk roots
    else (f1 :: stk, roots)

/-- Process one section: pop frames at level ≥ its own, then push it with
an empty child list.  Roots accumulate in reverse. -/
def buildStep : List Frame × List Sec → SecData → List Frame × List Sec
  | (stk, roots), d =>
    let st := popGo d.level none stk roots
    (⟨d, []⟩ :: st.1, st.2)

/-- `_build_section_hierarchy(sections)`: fold over the sections, then
flush the remaining stack (level bound 0 pops everything). -/
def buildHierarchy (ds : List SecData) : List Sec :=
  let st := ds.foldl buildStep ([], [])
  (popGo 0 none st.1 st.2).2.reverse

/-- The per-root extractor pass of `_parse_sections` (lines 449-452):
`for section in sections: section.code_blocks = ...` runs over the ROOT
sections only, leaving nested subsections untouched. -/
def updateRootSec : Sec → Sec
  | .node d cs =>
    .node { d with codeBlocks := extractSectionCodeBlocks d.content,
                   tables := extractSectionTables d.content,
                   links := extractSectionLinks d.content } cs

/-- `_parse_sections(lines, content)`: flat parse, hierarchy, then the
extractor pass over root sections. -/
def parseSectionsTop (lines : List (List Char)) : List Sec :=
  (buildHierarchy (parseSectionsFlat lines)).map updateRootSec

/-- `parsed.metadata["total_sections"]` (parser.py line 124):
`len(parsed.sections)`, the number of ROOT sections. -/
def metadataTotalSections (lines : List (List Char)) : Nat :=
  (parseSectionsTop lines).length

/-! ## Section counting and flattening (parser.py lines 582-612) -/

mutual
/-- `count_all_sections` contribution of a single section: itself plus all
nested subsections. -/
def countAllSec : Sec → Nat
  | .node _ cs => 1 + countAllForest cs

/-- `count_all_sections(sections)` = `len(sections)` plus the recursive
counts of each section's subsections. -/
def countAllForest : List Sec → Nat
  | [] => 0
  | s :: rest => countAllSec s + countAllForest rest
end

mutual
/-- `get_all_sections_flat` contribution of a single section: itself, then
its subsections depth-first. -/
def getAllSec : Sec → List Sec
  | .node d cs => .node d cs :: getAllForest cs

/-- `get_all_sections_flat(sections)` (depth-first flatten). -/
def getAllForest : List Sec → List Sec
  | [] => []
  | s :: rest => getAllSec s ++ getAllForest rest
end

mutual
/-- The depth-first list of section data in a tree. -/
def secFlat : Sec → List SecData
  | .node d cs => d :: forestFlat cs

/-- The depth-first list of section data in a forest. -/
def forestFlat : List Sec → List SecData
  | [] => []
  | s :: rest => secFlat s ++ forestFlat rest
end

/-! ## Batch parsing (`parse_all_readmes`, parser.py lines 135-178)

The filesystem is abstracted: a directory listing is a list of files, each
carrying its name, the verdict of `should_process_file` (config.py lines
556-583, which inspects the filesystem), and the outcome of
`parse_readme` on it — `Except.error` when that call would raise.  The
`try/except` of the batch loop keeps `ok` results and skips `error`s.
Python's `sort(key=lambda x: x.name.lower())` is a stable sort by the
lowercased name; `List.mergeSort` is the same stable sort. -/

/-- A parsed document, reduced to the identity the batch claims need. -/
structure PDoc where
  fileName : List Char
deriving DecidableEq, Repr

/-- A file of the source directory, as seen by `parse_all_readmes`. -/
structure MFile where
  name : List Char
  shouldProcess : Bool
  outcome : Except (List Char) PDoc

/-- The comparison used for the batch sort: lowercased names,
lexicographically. -/
def fileLe (a b : MFile) : Bool := lexLe (lowerL a.name) (lowerL b.name)

/-- `parse_all_readmes`: filter by `should_process_file`, sort by
lowercased name, parse each file keeping only the successful ones. -/
def parseAllModel (files : List MFile) : List PDoc :=
  let eligible := files.filter fun f => f.shouldProcess
  let sorted := eligible.mergeSort fileLe
  sorted.filterMap fun f =>
    match f.outcome with
    | .ok d => some d
    | .error _ => none

/-! ## Lemmas about flattening the built hierarchy -/

lemma forestFlat_append (A B : List Sec) :
    forestFlat (A ++ B) = forestFlat A ++ forestFlat B := by
  induction A with
  | nil => simp [forestFlat]
  | cons s A ih => simp [forestFlat, ih]

/-- The flat data of a stack frame: its own section then its accumulated
children in document order. -/
def frameFlat (f : Frame) : List SecData := f.d :: forestFlat f.revCs.reverse

/-- The flat data of the stack, bottom frame first. -/
def stackFlat : List Frame → List SecData
  | [] => []
  | f :: stk => stackFlat stk ++ frameFlat f

/-- The flat data of a pending popped tree. -/
def pendFlat : Option Sec → List SecData
  | some t => secFlat t
  | none => []

/-- The flat data of the whole build state. -/
def stFlat (stk : List Frame) (roots : List Sec) : List SecData :=
  forestFlat roots.reverse ++ stackFlat stk

lemma popGo_flat (lvl : Nat) (stk : List Frame) :
    ∀ (pending : Option Sec) (roots : List Sec),
    stFlat (popGo lvl pending stk roots).1 (popGo lvl pending stk roots).2
      = stFlat stk roots ++ pendFlat pending := by
  induction stk with
  | nil =>
    intro pending roots
    cases pending with
    | none => simp [popGo, stFlat, pendFlat]
    | some t => simp [popGo, stFlat, pendFlat, stackFlat, forestFlat_append, forestFlat, secFlat]
  | cons f stk ih =>
    intro pending roots
    cases pending with
    | none =>
      simp only [popGo]
      by_cases h : lvl ≤ f.d.level
      · simp only [h, if_pos]
        rw [ih]
        simp [stFlat, stackFlat, pendFlat, frameFlat, secFlat, List.append_assoc]
      · simp [h, stFlat, stackFlat, pendFlat]
    | some t =>
      simp only [popGo]
      by_cases h : lvl ≤ f.d.level
      · simp only [h, if_pos]
        rw [ih]
        simp [stFlat, stackFlat, pendFlat, frameFlat, secFlat,
          forestFlat_append, forestFlat, List.append_assoc]
      · simp [h, stFlat, stackFlat, pendFlat, frameFlat,
          forestFlat_append, forestFlat, secFlat, List.append_assoc]

lemma buildFold_flat (ds : List SecData) :
    ∀ (stk : List Frame) (roots : List Sec),
    stFlat (ds.foldl buildStep (stk, roots)).1 (ds.foldl buildStep (stk, roots)).2
      = stFlat stk roots ++ ds := by
  induction ds with
  | nil => intro stk roots; simp
  | cons d ds ih =>
    intro stk roots
    have hstep : buildStep (stk, roots) d
        = (⟨d, []⟩ :: (popGo d.level none stk roots).1, (popGo d.level none stk roots).2) := by
      simp [buildStep]
    simp only [List.foldl_cons, hstep]
    rw [ih]
    have := popGo_flat d.level stk none roots
    simp only [pendFlat, List.append_nil] at this
    simp [stFlat, stackFlat, frameFlat, forestFlat] at this ⊢
    rw [← List.append_assoc, ← List.append_assoc, this]

lemma popGo_zero_stack (stk : List Frame) :
    ∀ (pending : Option Sec) (roots : List Sec),
    (popGo 0 pending stk roots).1 = [] := by
  induction stk with
  | nil => intro pending roots; simp [popGo]
  | cons f stk ih => intro pending roots; cases pending <;> simp [popGo, ih]

/-- Flattening the built hierarchy recovers the input list. -/
lemma buildHierarchy_flatten (ds : List SecData) :
    forestFlat (buildHierarchy ds) = ds := by
  unfold buildHierarchy
  have h1 := buildFold_flat ds [] []
  simp only [stFlat, stackFlat, forestFlat, List.reverse_nil, List.nil_append,
    List.append_nil] at h1
  set st := ds.foldl buildStep ([], []) with hst
  have h2 := popGo_flat 0 st.1 none st.2
  have h3 := popGo_zero_stack st.1 none st.2
  simp only [pendFlat, List.append_nil] at h2
  rw [h3] at h2
  simp only [stFlat, stackFlat, List.append_nil] at h2
  rw [h2]
  exact h1

mutual
theorem getAllSec_map_dataOf (s : Sec) : (getAllSec s).map Sec.dataOf = secFlat s := by
  cases s with
  | node d cs =>
    simp [getAllSec, secFlat, getAllForest_map_dataOf cs, Sec.dataOf]

theorem getAllForest_map_dataOf (F : List Sec) :
    (getAllForest F).map Sec.dataOf = forestFlat F := by
  cases F with
  | nil => simp [getAllForest, forestFlat]
  | cons s F =>
    simp [getAllForest, forestFlat, getAllSec_map_dataOf s, getAllForest_map_dataOf F]
end

mutual
theorem countAllSec_eq_length (s : Sec) : countAllSec s = (secFlat s).length := by
  cases s with
  | node d cs =>
    simp [countAllSec, secFlat, countAllForest_eq_length cs]
    omega

theorem countAllForest_eq_length (F : List Sec) :
    countAllForest F = (forestFlat F).length := by
  cases F with
  | nil => simp [countAllForest, forestFlat]
  | cons s F =>
    simp [countAllForest, forestFlat, countAllSec_eq_length s, countAllForest_eq_length F]
end

lemma countAllForest_map_update (F : List Sec) :
    countAllForest (F.map updateRootSec) = countAllForest F := by
  induction F with
  | nil => simp [countAllForest]
  | cons s F ih =>
    cases s with
    | node d cs => simp [countAllForest, countAllSec, updateRootSec, ih]

/-! ## Level invariants of the built hierarchy -/

mutual
/-- Direct-child well-formedness: every direct subsection has a strictly
greater level, recursively (the Python stack invariant). -/
def wfSec : Sec → Bool
  | .node d cs => cs.all (fun c => decide (d.level < c.rootLevel)) && wfForest cs

/-- `wfSec` for every tree of a forest. -/
def wfForest : List Sec → Bool
  | [] => true
  | s :: rest => wfSec s && wfForest rest
end

mutual
/-- Strict-descendant well-formedness: every strict descendant at any
depth has a strictly greater level, recursively.  In particular no section
is nested (at any depth) under a section of equal level. -/
def strictSec : Sec → Bool
  | .node d cs => (forestFlat cs).all (fun x => decide (d.level < x.level)) && strictForest cs

/-- `strictSec` for every tree of a forest. -/
def strictForest : List Sec → Bool
  | [] => true
  | s :: rest => strictSec s && strictForest rest
end

lemma wfForest_iff (F : List Sec) : wfForest F = true ↔ ∀ s ∈ F, wfSec s = true := by
  induction F with
  | nil => simp [wfForest]
  | cons s F ih => simp [wfForest, ih]

mutual
theorem wfSec_lb (s : Sec) (lb : Nat) (h : wfSec s = true) (hlb : lb < s.rootLevel) :
    (∀ x ∈ secFlat s, lb < x.level) ∧ strictSec s = true := by
  cases s with
  | node d cs =>
    simp only [wfSec, Bool.and_eq_true, List.all_eq_true, decide_eq_true_eq] at h
    have hrec := wfForest_lb cs d.level h.2 h.1
    have hlb' : lb < d.level := hlb
    constructor
    · intro x hx
      simp only [secFlat, List.mem_cons] at hx
      rcases hx with rfl | hx
      · exact hlb'
      · exact Nat.lt_trans hlb' (hrec.1 x hx)
    · simp only [strictSec, Bool.and_eq_true, List.all_eq_true, decide_eq_true_eq]
      exact ⟨hrec.1, hrec.2⟩

theorem wfForest_lb (F : List Sec) (lb : Nat) (h : wfForest F = true)
    (hlb : ∀ c ∈ F, lb < c.rootLevel) :
    (∀ x ∈ forestFlat F, lb < x.level) ∧ strictForest F = true := by
  cases F with
  | nil => simp [forestFlat, strictForest]
  | cons s F =>
    simp only [wfForest, Bool.and_eq_true] at h
    have hs := wfSec_lb s lb h.1 (hlb s (by simp))
    have hF := wfForest_lb F lb h.2 (fun c hc => hlb c (by simp [hc]))
    constructor
    · intro x hx
      rw [forestFlat, List.mem_append] at hx
      rcases hx with hx | hx
      · exact hs.1 x hx
      · exact hF.1 x hx
    · simp only [strictForest, Bool.and_eq_true]
      exact ⟨hs.2, hF.2⟩
end

theorem wfSec_strict (s : Sec) (h : wfSec s = true) : strictSec s = true := by
  cases s with
  | node d cs =>
    simp only [wfSec, Bool.and_eq_true, List.all_eq_true, decide_eq_true_eq] at h
    have hrec := wfForest_lb cs d.level h.2 h.1
    simp only [strictSec, Bool.and_eq_true, List.all_eq_true, decide_eq_true_eq]
    exact ⟨hrec.1, hrec.2⟩

theorem wfForest_strict (F : List Sec) (h : wfForest F = true) : strictForest F = true := by
  rw [wfForest_iff] at h
  induction F with
  | nil => simp [strictForest]
  | cons s F ih =>
    simp only [strictForest, Bool.and_eq_true]
    exact ⟨wfSec_strict s (h s (by simp)), ih fun t ht => h t (by simp [ht])⟩

/-- Stack levels strictly increase from bottom to top (stored top-first). -/
def stackLevels (stk : List Frame) : Prop :=
  List.Chain' (fun a b => b.d.level < a.d.level) stk

/-- Every frame's accumulated children are well-formed trees whose root
levels exceed the frame's level. -/
def framesOk (stk : List Frame) : Prop :=
  ∀ f ∈ stk, ∀ t ∈ f.revCs, f.d.level < t.rootLevel ∧ wfSec t = true

/-- Every finished root tree is well-formed. -/
def rootsOk (roots : List Sec) : Prop := ∀ t ∈ roots, wfSec t = true

/-- The hierarchy-builder invariant. -/
def buildInv (stk : List Frame) (roots : List Sec) : Prop :=
  stackLevels stk ∧ framesOk stk ∧ rootsOk roots

lemma popGo_inv (lvl : Nat) (stk : List Frame) :
    ∀ (pending : Option Sec) (roots : List Sec),
    buildInv stk roots →
    (∀ t, pending = some t → wfSec t = true ∧
        ∀ f, stk.head? = some f → f.d.level < t.rootLevel) →
    buildInv (popGo lvl pending stk roots).1 (popGo lvl pending stk roots).2 ∧
    (∀ f, (popGo lvl pending stk roots).1.head? = some f → f.d.level < lvl) := by
  induction stk with
  | nil =>
    intro pending roots hinv hp
    cases pending with
    | none => exact ⟨hinv, by simp [popGo]⟩
    | some t =>
      refine ⟨⟨hinv.1, hinv.2.1, ?_⟩, by simp [popGo]⟩
      intro u hu
      simp only [popGo, List.mem_cons] at hu
      rcases hu with rfl | hu
      · exact (hp u rfl).1
      · exact hinv.2.2 u hu
  | cons f stk ih =>
    intro pending roots hinv hp
    set f1 : Frame := (match pending with
      | some t => { f with revCs := t :: f.revCs }
      | none => f) with hf1
    have hf1d : f1.d = f.d := by
      cases pending <;> simp [hf1]
    have hf1cs : ∀ t ∈ f1.revCs, f.d.level < t.rootLevel ∧ wfSec t = true := by
      intro t ht
      cases pending with
      | none => exact hinv.2.1 f (by simp) t (by simpa [hf1] using ht)
      | some u =>
        simp only [hf1, List.mem_cons] at ht
        rcases ht with rfl | ht
        · exact ⟨(hp t rfl).2 f rfl, (hp t rfl).1⟩
        · exact hinv.2.1 f (by simp) t ht
    have hchain := hinv.1
    rw [stackLevels, List.chain'_cons'] at hchain
    have hgoal : popGo lvl pending (f :: stk) roots
        = if lvl ≤ f1.d.level then
            popGo lvl (some (Sec.node f1.d f1.revCs.reverse)) stk roots
          else (f1 :: stk, roots) := by
      cases pending <;> simp [popGo, hf1]
    by_cases hc : lvl ≤ f1.d.level
    · rw [hgoal, if_pos hc]
      apply ih
      · exact ⟨hchain.2, fun g hg => hinv.2.1 g (by simp [hg]), hinv.2.2⟩
      · intro t ht
        obtain rfl : t = Sec.node f1.d f1.revCs.reverse := by
          simpa using ht.symm
        constructor
        · simp only [wfSec, Bool.and_eq_true, List.all_eq_true, decide_eq_true_eq]
          constructor
          · intro c hc'
            rw [List.mem_reverse] at hc'
            exact hf1d ▸ (hf1cs c hc').1
          · rw [wfForest_iff]
            intro c hc'
            rw [List.mem_reverse] at hc'
            exact (hf1cs c hc').2
        · intro g hg
          have := hchain.1 g hg
          simpa [Sec.rootLevel, Sec.dataOf, hf1d] using this
    · rw [hgoal, if_neg hc]
      refine ⟨⟨?_, ?_, hinv.2.2⟩, ?_⟩
      · rw [stackLevels, List.chain'_cons']
        refine ⟨?_, hchain.2⟩
        intro g hg
        rw [hf1d]
        exact hchain.1 g hg
      · intro g hg t ht
        simp only [List.mem_cons] at hg
        rcases hg with rfl | hg
        · exact (hf1d ▸ hf1cs t ht : _)
        · exact hinv.2.1 g (by simp [hg]) t ht
      · intro g hg
        simp only [List.head?_cons, Option.some_inj] at hg
        subst hg
        omega

lemma buildStep_inv (stk : List Frame) (roots : List Sec) (d : SecData)
    (h : buildInv stk roots) :
    buildInv (buildStep (stk, roots) d).1 (buildStep (stk, roots) d).2 := by
  have hpop := popGo_inv d.level stk none roots h (by intro t ht; cases ht)
  have hstep : buildStep (stk, roots) d
      = (⟨d, []⟩ :: (popGo d.level none stk roots).1, (popGo d.level none stk roots).2) := by
    simp [buildStep]
  rw [hstep]
  refine ⟨?_, ?_, hpop.1.2.2⟩
  · rw [stackLevels, List.chain'_cons']
    exact ⟨fun g hg => hpop.2 g hg, hpop.1.1⟩
  · intro g hg t ht
    simp only [List.mem_cons] at hg
    rcases hg with rfl | hg
    · cases ht
    · exact hpop.1.2.1 g hg t ht

lemma buildFold_inv (ds : List SecData) :
    ∀ (stk : List Frame) (roots : List Sec), buildInv stk roots →
    buildInv (ds.foldl buildStep (stk, roots)).1 (ds.foldl buildStep (stk, roots)).2 := by
  induction ds with
  | nil => intro stk roots h; exact h
  | cons d ds ih =>
    intro stk roots h
    simp only [List.foldl_cons]
    have hb := buildStep_inv stk roots d h
    have he : buildStep (stk, roots) d
        = ((buildStep (stk, roots) d).1, (buildStep (stk, roots) d).2) := rfl
    rw [he]
    exact ih _ _ hb

/-! ## Claim theorems: evaluations at concrete inputs -/

/-- C6: the claim says one workflow is emitted per maximal run of ≥ 3
consecutive numbered lines, runs separated by non-matching lines are
distinct, and runs shorter than 3 produce nothing.  The code keeps the
accumulator when a short run ends (the reset happens only in the ≥ 3
branch), so the three isolated numbered lines below — no two of them
consecutive — merge into one emitted workflow, where the claim demands
none at all. -/
theorem c6_isolated_numbered_lines_merge :
    extractNumberedWorkflows
        [strL ("1. a"), strL ("x"), strL ("2. b"), strL ("y"), strL ("3. c"), strL ("z")]
      = [strL ("1. a\n2. b\n3. c")] := by
  decide

/-- C9: the config comment documents detection of the colon-inside form
(two asterisks, `Version:`, two asterisks, then the number), but the
regex `(?i)\*\*version\*\*:\s*[\d.]+` demands the colon outside the
closing asterisks; on the documented form `findall` returns nothing and
the special-content map has no `version` entry, while the colon-outside
form does match. -/
theorem c9_version_colon_inside_not_detected :
    specialVersionEntry (strL ("**Version:** 1.0")) = none ∧
    versionFindall (strL ("**Version:** 1.0")) = [] ∧
    versionFindall (strL ("**Version**: 1.0")) = [strL ("**Version**: 1.0")] := by
  refine ⟨by decide, by decide, by decide⟩

/-- C1 counterexample: in the document `# A / x / ## B / y` the claim says
section `A` (level 1) owns the raw text up to the next header of level ≤ 1
— i.e. `x\n## B\ny`, including the text under the deeper `## B`.  The
parser instead ends `A`'s content at the very next header of ANY level:
`A` owns only `x`, and `y` belongs to the nested subsection `B`. -/
theorem c1_counterexample :
    ((parseSectionsTop [strL ("# A"), strL ("x"), strL ("## B"), strL ("y")]).map
        fun s => s.dataOf.content) = [strL ("x")] ∧
    ((parseSectionsTop [strL ("# A"), strL ("x"), strL ("## B"), strL ("y")]).map
        fun s => s.subsOf.map fun t => t.dataOf.content) = [[strL ("y")]] ∧
    strL ("x") ≠ strL ("x\n## B\ny") := by
  refine ⟨by decide, by decide, by decide⟩

/-- C2 counterexample: the document `# A / ## B` has two sections in total
(`count_all_sections` = 2), but `metadata["total_sections"]` is
`len(parsed.sections)` = the number of ROOT sections = 1, not the claimed
count including nested subsections. -/
theorem c2_counterexample :
    metadataTotalSections [strL ("# A"), strL ("## B")] = 1 ∧
    countAllForest (parseSectionsTop [strL ("# A"), strL ("## B")]) = 2 := by
  refine ⟨by decide, by decide⟩

/-- C3 counterexample: in `# A / ## B / fenced python block`, the nested
section `B` owns a fenced code block in its content, yet its stored
`code_blocks` list is empty — the extractor re-run loop covers only root
sections; re-running the extractor on `B`'s own content yields 2 blocks
(the fenced block and an inline-pattern artefact). -/
theorem c3_counterexample :
    ((parseSectionsTop
        [strL ("# A"), strL ("## B"), strL ("```py"), strL ("print(123456)"), strL ("```")]).map
      fun s => s.subsOf.map fun t => t.dataOf.codeBlocks.length) = [[0]] ∧
    ((parseSectionsTop
        [strL ("# A"), strL ("## B"), strL ("```py"), strL ("print(123456)"), strL ("```")]).map
      fun s => s.subsOf.map fun t => (extractSectionCodeBlocks t.dataOf.content).length)
      = [[2]] := by
  refine ⟨by decide, by decide⟩

/-! ## C4: header level exactness -/

/-- A line starting with at least `N` hashes (`M < N`) fails the level-`M`
pattern: the character after the `M` hashes is `'#'`, not whitespace. -/
lemma hlm_lt (M N : Nat) (hMN : M < N) (r : List Char) :
    headerLevelMatches M (List.replicate N '#' ++ r) = false := by
  obtain ⟨k, hk⟩ : ∃ k, N - M = k + 1 := ⟨N - M - 1, by omega⟩
  simp only [headerLevelMatches,
    List.drop_append_of_le_length (by simp; omega : M ≤ (List.replicate N '#').length),
    List.drop_replicate, hk, List.replicate_succ, List.cons_append]
  simp [isPySpace]

/-- A line of exactly `N` hashes followed by a whitespace character and a
nonempty remainder passes the level-`N` pattern. -/
lemma hlm_self (N : Nat) (w : Char) (hw : isPySpace w = true) (r : List Char) (hr : r ≠ []) :
    headerLevelMatches N (List.replicate N '#' ++ w :: r) = true := by
  simp only [headerLevelMatches,
    List.take_append_of_le_length (by simp : N ≤ (List.replicate N '#').length),
    List.drop_append_of_le_length (by simp : N ≤ (List.replicate N '#').length),
    List.take_replicate, List.drop_replicate, Nat.min_self, Nat.sub_self,
    List.replicate_zero, List.nil_append]
  simp [hw, hr]

/-- A line whose hash run stops before position `M` (`N < M`, next
character not `'#'`) fails the level-`M` pattern: its prefix of length `M`
is not `M` hashes. -/
lemma hlm_gt (M N : Nat) (hNM : N < M) (c : Char) (hc : c ≠ '#') (r : List Char) :
    headerLevelMatches M (List.replicate N '#' ++ c :: r) = false := by
  have hne : (List.replicate N '#' ++ c :: r).take M ≠ List.replicate M '#' := by
    intro h
    have h2 := congrArg (fun l => l[N]?) h
    simp only [List.getElem?_take_of_lt hNM,
      List.getElem?_append_right (by simp : (List.replicate N '#').length ≤ N),
      List.getElem?_replicate] at h2
    simp [hNM] at h2
    exact hc h2
  simp [headerLevelMatches, hne]

/-- A hash run followed by nothing, or by a character that is neither
whitespace nor `'#'`, fails the pattern at every level. -/
lemma hlm_hashes_only (M K : Nat) (rest : List Char)
    (hrest : ∀ c, rest.head? = some c → isPySpace c = false ∧ c ≠ '#') :
    headerLevelMatches M (List.replicate K '#' ++ rest) = false := by
  rcases Nat.lt_trichotomy M K with h | h | h
  · exact hlm_lt M K h rest
  · subst h
    cases rest with
    | nil =>
      simp [headerLevelMatches, List.drop_append_of_le_length,
        List.drop_replicate]
    | cons c r =>
      have := hrest c rfl
      simp only [headerLevelMatches,
        List.drop_append_of_le_length (by simp : M ≤ (List.replicate M '#').length),
        List.drop_replicate, Nat.sub_self, List.replicate_zero, List.nil_append]
      simp [this.1]
  · cases rest with
    | nil =>
      have hne : (List.replicate K '#' ++ ([] : List Char)).take M ≠ List.replicate M '#' := by
        intro he
        have := congrArg List.length he
        simp at this
        omega
      simp only [headerLevelMatches, hne]
      simp
    | cons c r =>
      exact hlm_gt M K h c (hrest c rfl).2 r

/-- C4: for every `N` in `1..6`, a line of exactly `N` hash characters
followed by whitespace and nonempty text is matched by `_match_header` at
level `N`, and the level pattern of every other level `M` in `1..6`
rejects it; and a line consisting of a hash run with no following
whitespace (nothing after the hashes, or a non-whitespace non-hash
character) is matched at no level. -/
theorem c4_header_level_exactness :
    (∀ N, 1 ≤ N → N ≤ 6 → ∀ ws text : List Char,
      ws ≠ [] → (∀ c ∈ ws, isPySpace c = true) → text ≠ [] →
      ((matchHeader (List.replicate N '#' ++ ws ++ text)).map Prod.fst = some N ∧
       ∀ M, 1 ≤ M → M ≤ 6 → M ≠ N →
         headerLevelMatches M (List.replicate N '#' ++ ws ++ text) = false)) ∧
    (∀ K rest, 1 ≤ K →
      (∀ c, rest.head? = some c → isPySpace c = false ∧ c ≠ '#') →
      matchHeader (List.replicate K '#' ++ rest) = none) := by
  constructor
  · intro N h1 h6 ws text hws hwsall htext
    obtain ⟨w, ws', rfl⟩ : ∃ w ws', ws = w :: ws' := by
      cases ws with
      | nil => exact absurd rfl hws
      | cons w ws' => exact ⟨w, ws', rfl⟩
    have hw : isPySpace w = true := hwsall w (by simp)
    have hwh : w ≠ '#' := by
      intro he; subst he; simp [isPySpace] at hw
    have hshape : List.replicate N '#' ++ (w :: ws') ++ text
        = List.replicate N '#' ++ w :: (ws' ++ text) := by simp
    have hr : ws' ++ text ≠ [] := by
      simp [htext]
    have hself : headerLevelMatches N (List.replicate N '#' ++ (w :: ws') ++ text) = true := by
      rw [hshape]; exact hlm_self N w hw _ hr
    have hother : ∀ M, M ≠ N →
        headerLevelMatches M (List.replicate N '#' ++ (w :: ws') ++ text) = false := by
      intro M hMN
      rcases Nat.lt_or_ge M N with h | h
      · rw [List.append_assoc]; exact hlm_lt M N h _
      · have : N < M := by omega
        rw [hshape]; exact hlm_gt M N this w hwh _
    refine ⟨?_, fun M _ _ hMN => hother M hMN⟩
    interval_cases N <;>
      simp_all [matchHeader, matchHeaderAux]
  · intro K rest hK hrest
    have h := fun M => hlm_hashes_only M K rest hrest
    simp [matchHeader, matchHeaderAux, h]

/-- C4 witness: the theorem applied to the line of 3 hashes, one space and
`Hi` (matched at level 3, rejected at level 2), and to the 2-hash line
followed directly by `x` (matched at no level). -/
theorem c4_header_level_exactness_witness :
    (matchHeader (List.replicate 3 '#' ++ [' '] ++ strL ("Hi"))).map Prod.fst = some 3 ∧
    headerLevelMatches 2 (List.replicate 3 '#' ++ [' '] ++ strL ("Hi")) = false ∧
    matchHeader (List.replicate 2 '#' ++ strL ("x")) = none := by
  have h1 := (c4_header_level_exactness.1 3 (by decide) (by decide) [' '] (strL ("Hi"))
    (by decide) (by decide) (by decide))
  refine ⟨h1.1, h1.2 2 (by decide) (by decide) (by decide), ?_⟩
  refine c4_header_level_exactness.2 2 (strL ("x")) (by decide) ?_
  intro c hc
  obtain rfl : c = 'x' := by
    simpa [strL] using hc.symm
  decide

/-- C8 counterexample: a lone alignment-separator line with no table open:
the claim says it neither starts a table nor appears in any table, but
since the separator shape also matches the general row pattern, the row
branch fires first and it opens (and here constitutes) a table. -/
theorem c8_counterexample :
    sepMatch (strL ("|---|")) = true ∧
    extractTables [strL ("|---|")] = [strL ("|---|")] := by
  refine ⟨by decide, by decide⟩

/-- Processing a run of non-header lines only accumulates them into the
current section's pending content. -/
lemma sectionsGo_nonheaders (a : List (List Char)) (ha : ∀ l ∈ a, matchHeader l = none) :
    ∀ (i : Nat) (s : SecData) (cc : List (List Char)) (acc : List SecData)
      (rest : List (List Char)),
    sectionsGo i (some s) cc acc (a ++ rest)
      = sectionsGo (i + a.length) (some s) (cc ++ a) acc rest := by
  induction a with
  | nil => intro i s cc acc rest; simp
  | cons l a ih =>
    intro i s cc acc rest
    have hl : matchHeader l = none := ha l (by simp)
    simp only [List.cons_append, sectionsGo, hl, List.append_eq]
    rw [ih (fun x hx => ha x (by simp [hx])) (i + 1) s (cc ++ [l]) acc rest]
    have harith : i + 1 + a.length = i + (a.length + 1) := by omega
    rw [harith]
    simp [List.append_assoc]

/-- C1 (amended): a section's content is the text between its own header
and the NEXT header of any level (exclusive), joined and stripped — even
when that next header is strictly deeper; the text below the deeper
header belongs to the subsection, not to the enclosing section. -/
theorem c1_content_ends_at_next_header (h k : List Char) (lh lk : Nat) (th tk : List Char)
    (a b : List (List Char))
    (hh : matchHeader h = some (lh, th)) (hk : matchHeader k = some (lk, tk))
    (hlv : lh < lk)
    (ha : ∀ l ∈ a, matchHeader l = none) (hb : ∀ l ∈ b, matchHeader l = none) :
    (parseSectionsFlat (h :: a ++ k :: b)).map (fun d => (d.title, d.level, d.content))
      = [(th, lh, stripPy (joinLines a)), (tk, lk, stripPy (joinLines b))] := by
  clear hlv
  unfold parseSectionsFlat
  simp only [List.cons_append, sectionsGo, hh, List.append_eq, Nat.zero_add]
  rw [sectionsGo_nonheaders a ha 1 _ [] [] (k :: b)]
  simp only [sectionsGo, hk, List.nil_append]
  rw [show (b : List (List Char)) = b ++ [] from (List.append_nil b).symm]
  rw [sectionsGo_nonheaders b hb _ _ [] _ []]
  simp [sectionsGo]

/-- C1 witness: the amended theorem applied to the document
`# A / x / ## B / y`: section `A` owns only `x`, section `B` owns `y`. -/
theorem c1_content_ends_at_next_header_witness :
    (parseSectionsFlat (strL ("# A") :: [strL ("x")] ++ strL ("## B") :: [strL ("y")])).map
        (fun d => (d.title, d.level, d.content))
      = [(strL ("A"), 1, stripPy (joinLines [strL ("x")])),
         (strL ("B"), 2, stripPy (joinLines [strL ("y")]))] :=
  c1_content_ends_at_next_header (strL ("# A")) (strL ("## B")) 1 2 (strL ("A")) (strL ("B"))
    [strL ("x")] [strL ("y")] (by decide) (by decide) (by decide) (by decide) (by decide)

/-- C2 (amended): `metadata["total_sections"]` equals the number of
root-level sections produced by the hierarchy build, while the count
including all nested subsections (`count_all_sections`) equals the number
of flat document-order sections — the quantity is only smaller when
nesting occurs, and the claim's "including all nested subsections" reading
holds of `count_all_sections`, not of the stored metadata value. -/
theorem c2_total_sections_counts_roots_only (lines : List (List Char)) :
    metadataTotalSections lines = (buildHierarchy (parseSectionsFlat lines)).length ∧
    countAllForest (parseSectionsTop lines) = (parseSectionsFlat lines).length := by
  constructor
  · simp [metadataTotalSections, parseSectionsTop]
  · rw [parseSectionsTop, countAllForest_map_update, countAllForest_eq_length,
      buildHierarchy_flatten]

/-- Every section emitted by the flat parsing loop carries the default
empty extractor fields. -/
lemma sectionsGo_extras :
    ∀ (lines : List (List Char)) (i : Nat) (cur : Option SecData)
      (cc : List (List Char)) (acc : List SecData),
    (∀ d ∈ acc, d.codeBlocks = [] ∧ d.tables = [] ∧ d.links = []) →
    (∀ s, cur = some s → s.codeBlocks = [] ∧ s.tables = [] ∧ s.links = []) →
    ∀ d ∈ sectionsGo i cur cc acc lines, d.codeBlocks = [] ∧ d.tables = [] ∧ d.links = [] := by
  intro lines
  induction lines with
  | nil =>
    intro i cur cc acc hacc hcur d hd
    cases cur with
    | none => exact hacc d hd
    | some s =>
      simp only [sectionsGo, List.mem_append, List.mem_singleton] at hd
      rcases hd with hd | rfl
      · exact hacc d hd
      · simpa using hcur s rfl
  | cons l rest ih =>
    intro i cur cc acc hacc hcur d hd
    simp only [sectionsGo] at hd
    cases hml : matchHeader l with
    | some p =>
      rw [hml] at hd
      cases cur with
      | none =>
        refine ih (i + 1) _ [] acc hacc ?_ d hd
        intro s hs
        simp only [Option.some_inj] at hs
        subst hs
        exact ⟨rfl, rfl, rfl⟩
      | some s0 =>
        refine ih (i + 1) _ [] _ ?_ ?_ d hd
        · intro e he
          simp only [List.mem_append, List.mem_singleton] at he
          rcases he with he | rfl
          · exact hacc e he
          · simpa using hcur s0 rfl
        · intro s hs
          simp only [Option.some_inj] at hs
          subst hs
          exact ⟨rfl, rfl, rfl⟩
    | none =>
      rw [hml] at hd
      cases cur with
      | none => exact ih (i + 1) none cc acc hacc (by intro s hs; cases hs) d hd
      | some s0 => exact ih (i + 1) (some s0) (cc ++ [l]) acc hacc hcur d hd

/-- The data of the subsections of a forest member is part of the data of
the forest. -/
lemma mem_forestFlat_of_mem_subs (F : List Sec) (s : Sec) (hs : s ∈ F) :
    ∀ d ∈ forestFlat s.subsOf, d ∈ forestFlat F := by
  induction F with
  | nil => cases hs
  | cons f F ih =>
    intro d hd
    rcases List.mem_cons.1 hs with rfl | hs'
    · cases s with
      | node d0 cs =>
        simp only [Sec.subsOf] at hd
        simp [forestFlat, secFlat, hd]
    · simp [forestFlat, ih hs' d hd]

/-- C3 (amended): after single-file parsing, a ROOT section carries the
re-run extractor results for its own content, but every nested subsection
at any depth keeps the default empty codeBlocks/tables/links — the
re-extraction loop does not recurse. -/
theorem c3_only_roots_get_extractors (lines : List (List Char)) (n : Nat) (s : Sec)
    (hs : (parseSectionsTop lines)[n]? = some s) :
    s.dataOf.codeBlocks = extractSectionCodeBlocks s.dataOf.content ∧
    s.dataOf.tables = extractSectionTables s.dataOf.content ∧
    s.dataOf.links = extractSectionLinks s.dataOf.content ∧
    (forestFlat s.subsOf).all
      (fun d => d.codeBlocks.isEmpty && d.tables.isEmpty && d.links.isEmpty) = true := by
  have hmem : s ∈ parseSectionsTop lines := List.getElem?_mem hs
  rw [parseSectionsTop, List.mem_map] at hmem
  obtain ⟨r, hr, rfl⟩ := hmem
  cases r with
  | node d cs =>
    refine ⟨by simp [updateRootSec, Sec.dataOf], by simp [updateRootSec, Sec.dataOf],
      by simp [updateRootSec, Sec.dataOf], ?_⟩
    rw [List.all_eq_true]
    intro x hx
    have hx' : x ∈ forestFlat (Sec.node d cs).subsOf := by
      simpa [updateRootSec, Sec.subsOf] using hx
    have hxF : x ∈ forestFlat (buildHierarchy (parseSectionsFlat lines)) :=
      mem_forestFlat_of_mem_subs _ _ hr x hx'
    rw [buildHierarchy_flatten] at hxF
    have hempty := sectionsGo_extras lines 0 none [] []
      (by intro e he; cases he) (by intro e he; cases he) x hxF
    simp [List.isEmpty_iff, hempty.1, hempty.2.1, hempty.2.2]

/-- The first root section of the parsed document `# A / ## B`, with the
nested `B` as subsection. -/
def c3WitnessSec : Sec :=
  Sec.node ⟨strL ("A"), 1, [], 1, [], [], []⟩
    [Sec.node ⟨strL ("B"), 2, [], 2, [], [], []⟩ []]

/-- C3 witness: the theorem applied to the parsed document `# A / ## B`
at root index 0. -/
theorem c3_only_roots_get_extractors_witness :
    c3WitnessSec.dataOf.codeBlocks = extractSectionCodeBlocks c3WitnessSec.dataOf.content ∧
    c3WitnessSec.dataOf.tables = extractSectionTables c3WitnessSec.dataOf.content ∧
    c3WitnessSec.dataOf.links = extractSectionLinks c3WitnessSec.dataOf.content ∧
    (forestFlat c3WitnessSec.subsOf).all
      (fun d => d.codeBlocks.isEmpty && d.tables.isEmpty && d.links.isEmpty) = true :=
  c3_only_roots_get_extractors [strL ("# A"), strL ("## B")] 0 c3WitnessSec (by rfl)

/-- C5: in the forest returned by the hierarchy builder, every section's
direct children have strictly greater levels (`wfForest`), and in fact
every strict descendant at any depth has a strictly greater level than
its ancestor (`strictForest`) — hence equal-level sections are never
nested under one another and can only be siblings. -/
theorem c5_hierarchy_parent_level_invariant (ds : List SecData) :
    wfForest (buildHierarchy ds) = true ∧ strictForest (buildHierarchy ds) = true := by
  have h0 : buildInv [] [] := by
    refine ⟨List.chain'_nil, ?_, ?_⟩ <;> intro t ht <;> cases ht
  have hfold := buildFold_inv ds [] [] h0
  set st := ds.foldl buildStep ([], []) with hst
  have hfin := popGo_inv 0 st.1 none st.2 hfold (by intro t ht; cases ht)
  have hwf : wfForest (buildHierarchy ds) = true := by
    rw [wfForest_iff]
    intro s hs
    rw [buildHierarchy] at hs
    rw [← hst] at hs
    rw [List.mem_reverse] at hs
    exact hfin.1.2.2 s hs
  exact ⟨hwf, wfForest_strict _ hwf⟩

/-- A pipe is reachable through separator-class characters, all of which
are non-newline here, so the row pattern's pipe search also succeeds. -/
lemma hasPipe_of_drop (rs : List Char) (hnl : '\n' ∉ rs)
    (h : (rs.drop (rs.takeWhile sepClass).length).head? = some '|') :
    hasPipeNoNl rs = true := by
  induction rs with
  | nil => simp at h
  | cons c rs ih =>
    by_cases hc : sepClass c = true
    · rw [List.takeWhile_cons, if_pos hc] at h
      simp only [List.length_cons, List.drop_succ_cons] at h
      have hnl' : '\n' ∉ rs := fun hx => hnl (by simp [hx])
      have := ih hnl' h
      have hcn : c ≠ '\n' := fun he => hnl (by simp [he])
      simp [hasPipeNoNl, hcn, this]
    · rw [List.takeWhile_cons, if_neg hc] at h
      simp only [List.length_nil, List.drop_zero, List.head?_cons, Option.some_inj] at h
      subst h
      simp [hasPipeNoNl]

/-- C8 (amended): on the newline-free lines the parser works with, every
line matching the alignment-separator pattern also matches the general
row pattern, so the row branch — tried first — handles it: in particular
a lone separator-shaped line starts (and here constitutes) a table even
though no table was open. -/
theorem c8_separator_shaped_line_opens_table (l : List Char) (hnl : '\n' ∉ l)
    (h : sepMatch l = true) :
    rowMatch l = true ∧ extractTables [l] = [l] := by
  have hrow : rowMatch l = true := by
    cases l with
    | nil => simp [sepMatch] at h
    | cons c0 rest =>
      simp only [sepMatch, Bool.and_eq_true, decide_eq_true_eq, Bool.not_eq_eq_eq_not,
        Bool.not_true, List.isEmpty_eq_false] at h
      obtain ⟨rfl, hpre, hdrop⟩ := h
      cases rest with
      | nil => simp [List.takeWhile_nil] at hpre
      | cons c rs =>
        have hc : sepClass c = true := by
          by_contra hcc
          rw [List.takeWhile_cons, if_neg (by simpa using hcc)] at hpre
          simp at hpre
        rw [List.takeWhile_cons, if_pos hc] at hdrop
        simp only [List.length_cons, List.drop_succ_cons] at hdrop
        have hcn : c ≠ '\n' := fun he => hnl (by simp [he])
        have hr : hasPipeNoNl rs = true :=
          hasPipe_of_drop rs (fun hx => hnl (by simp [hx])) hdrop
        simp [rowMatch, hcn, hr]
  refine ⟨hrow, ?_⟩
  simp [extractTables, extractTablesGo, hrow, joinLines]

/-- C8 witness: the amended theorem applied to the separator line
consisting of a pipe, three dashes and a pipe. -/
theorem c8_separator_shaped_line_opens_table_witness :
    rowMatch (strL ("|---|")) = true ∧
    extractTables [strL ("|---|")] = [strL ("|---|")] :=
  c8_separator_shaped_line_opens_table (strL ("|---|")) (by decide) (by decide)

/-- C10: depth-first flattening (`get_all_sections_flat`) of the tree
returned by the hierarchy builder yields exactly the original flat
document-order section list — nothing is lost, duplicated or reordered. -/
theorem c10_hierarchy_flatten_roundtrip (ds : List SecData) :
    (getAllForest (buildHierarchy ds)).map Sec.dataOf = ds := by
  rw [getAllForest_map_dataOf, buildHierarchy_flatten]

/-! ## C7: batch resilience and ordering -/

lemma lexLe_total (a : List Char) : ∀ b, (lexLe a b || lexLe b a) = true := by
  induction a with
  | nil => intro b; simp [lexLe]
  | cons x xs ih =>
    intro b
    cases b with
    | nil => simp [lexLe]
    | cons y ys =>
      by_cases h1 : x < y
      · simp [lexLe, h1]
      · by_cases h2 : y < x
        · simp [lexLe, h1, h2]
        · simp [lexLe, h1, h2, ih ys]

lemma lexLe_trans : ∀ a b c : List Char,
    lexLe a b = true → lexLe b c = true → lexLe a c = true := by
  intro a
  induction a with
  | nil => intro b c _ _; simp [lexLe]
  | cons x xs ih =>
    intro b c hab hbc
    cases b with
    | nil => simp [lexLe] at hab
    | cons y ys =>
      cases c with
      | nil => simp [lexLe] at hbc
      | cons z zs =>
        simp only [lexLe] at hab hbc ⊢
        by_cases h1 : x < y
        · by_cases h2 : y < z
          · simp [lt_trans h1 h2]
          · by_cases h3 : z < y
            · simp [h2, h3] at hbc
            · have : y = z := le_antisymm (not_lt.1 h3) (not_lt.1 h2)
              subst this
              simp [h1]
        · by_cases h4 : y < x
          · simp [h1, h4] at hab
          · have hxy : x = y := le_antisymm (not_lt.1 h4) (not_lt.1 h1)
            subst hxy
            simp only [if_neg h1] at hab
            by_cases h2 : x < z
            · simp [h2]
            · by_cases h3 : z < x
              · simp [h2, h3] at hbc
              · have hxz : x = z := le_antisymm (not_lt.1 h3) (not_lt.1 h2)
                subst hxz
                simp only [if_neg h2] at hbc ⊢
                exact ih ys zs hab hbc

/-- Did `parse_readme` succeed on this file? -/
def outcomeOk (f : MFile) : Bool :=
  match f.outcome with
  | .ok _ => true
  | .error _ => false

/-- A successful parse reports the file's own name (which `parse_readme`
guarantees by construction: `file_name=file_path.name`). -/
def outcomeNameOk (f : MFile) : Bool :=
  match f.outcome with
  | .ok d => decide (d.fileName = f.name)
  | .error _ => true

lemma length_filterMap_eq_countP (g : MFile → Option PDoc) (l : List MFile) :
    (l.filterMap g).length = l.countP (fun a => (g a).isSome) := by
  induction l with
  | nil => simp
  | cons a l ih => cases hg : g a <;> simp [List.filterMap_cons, hg, List.countP_cons, ih]

/-- C7: batch parsing never propagates a per-file failure.  For any
directory listing (with parse outcomes given per file): the number of
returned documents is the number of eligible files whose parse succeeds;
the returned documents are ordered by lowercased file name; every
returned document comes from an eligible file that parsed successfully;
and every eligible file that parses successfully contributes its document
to the result. -/
theorem c7_batch_resilience_and_order (files : List MFile)
    (hname : ∀ f ∈ files, outcomeNameOk f = true) :
    (parseAllModel files).length
      = (files.filter fun f => f.shouldProcess).countP outcomeOk ∧
    List.Pairwise
      (fun d1 d2 : PDoc => lexLe (lowerL d1.fileName) (lowerL d2.fileName) = true)
      (parseAllModel files) ∧
    (∀ d ∈ parseAllModel files, ∃ f ∈ files, f.shouldProcess = true ∧ f.outcome = Except.ok d) ∧
    (∀ f ∈ files, f.shouldProcess = true → ∀ d, f.outcome = Except.ok d →
      d ∈ parseAllModel files) := by
  refine ⟨?_, ?_, ?_, ?_⟩
  · rw [parseAllModel]
    rw [length_filterMap_eq_countP]
    have hperm := List.mergeSort_perm (files.filter fun f => f.shouldProcess) fileLe
    rw [hperm.countP_eq]
    apply List.countP_congr
    intro f _
    cases hf : f.outcome <;> simp [outcomeOk, hf]
  · rw [parseAllModel]
    have hsort := @List.sorted_mergeSort MFile fileLe
      (fun a b c hab hbc => lexLe_trans _ _ _ hab hbc)
      (fun a b => lexLe_total _ _)
      (files.filter fun f => f.shouldProcess)
    refine List.pairwise_filterMap.2 ?_
    refine hsort.imp_of_mem ?_
    intro a b ha hb hab
    intro x hx y hy
    have haf : a ∈ files := (List.mem_filter.1 (List.mem_mergeSort.1 ha)).1
    have hbf : b ∈ files := (List.mem_filter.1 (List.mem_mergeSort.1 hb)).1
    have hxa : x.fileName = a.name := by
      have := hname a haf
      cases hao : a.outcome with
      | ok d =>
        rw [hao] at hx
        simp only [Option.mem_def, Option.some_inj] at hx
        subst hx
        simpa [outcomeNameOk, hao] using this
      | error e => rw [hao] at hx; simp at hx
    have hyb : y.fileName = b.name := by
      have := hname b hbf
      cases hbo : b.outcome with
      | ok d =>
        rw [hbo] at hy
        simp only [Option.mem_def, Option.some_inj] at hy
        subst hy
        simpa [outcomeNameOk, hbo] using this
      | error e => rw [hbo] at hy; simp at hy
    rw [hxa, hyb]
    exact hab
  · intro d hd
    rw [parseAllModel, List.mem_filterMap] at hd
    obtain ⟨f, hf, hfd⟩ := hd
    refine ⟨f, (List.mem_filter.1 (List.mem_mergeSort.1 hf)).1, ?_, ?_⟩
    · exact (List.mem_filter.1 (List.mem_mergeSort.1 hf)).2
    · cases hfo : f.outcome with
      | ok e =>
        rw [hfo] at hfd
        simp at hfd
        rw [hfd]
      | error e => rw [hfo] at hfd; simp at hfd
  · intro f hf hsp d hok
    rw [parseAllModel, List.mem_filterMap]
    refine ⟨f, List.mem_mergeSort.2 (List.mem_filter.2 ⟨hf, hsp⟩), ?_⟩
    rw [hok]

/-- A directory with three parseable files and one file whose parse
raises (in mixed name casing, so the sort is exercised). -/
def c7Files : List MFile :=
  [⟨strL ("B.md"), true, Except.ok ⟨strL ("B.md")⟩⟩,
   ⟨strL ("a.md"), true, Except.ok ⟨strL ("a.md")⟩⟩,
   ⟨strL ("D.md"), true, Except.error (strL ("boom"))⟩,
   ⟨strL ("c.md"), true, Except.ok ⟨strL ("c.md")⟩⟩]

/-- C7 witness: the theorem applied to three parseable files plus one
failing file: exactly 3 documents are returned, in lowercased-name order,
each from a successfully parsed eligible file. -/
theorem c7_batch_resilience_and_order_witness :
    (parseAllModel c7Files).length
      = (c7Files.filter fun f => f.shouldProcess).countP outcomeOk ∧
    List.Pairwise
      (fun d1 d2 : PDoc => lexLe (lowerL d1.fileName) (lowerL d2.fileName) = true)
      (parseAllModel c7Files) ∧
    (∀ d ∈ parseAllModel c7Files, ∃ f ∈ c7Files, f.shouldProcess = true ∧
      f.outcome = Except.ok d) ∧
    (∀ f ∈ c7Files, f.shouldProcess = true → ∀ d, f.outcome = Except.ok d →
      d ∈ parseAllModel c7Files) :=
  c7_batch_resilience_and_order c7Files (by decide)

end ReadmeGen
